import Mathlib

/-!
# Verification of `mat_neuron/core.py` (MAT point-neuron integration)

This file gives a shallow embedding, over `ℝ`, of the functions in
`src/mat_neuron/core.py` of the `mat-neuron` repository, together with the
pieces of behaviour of the compiled extension `_model` that the repository
sources do not contain (those definitions are marked `Modelled from the spec:`).
The Python float arithmetic is idealised as real arithmetic, `scipy.linalg.expm`
as the matrix exponential `NormedSpace.exp ℝ`, and Python exceptions as an
`Except` result type.

The first section proves general facts about entries of powers and of the
exponential of a square real matrix (triangular structure is preserved, a
decoupled block propagates independently); the model of the source follows;
the claim theorems come last.
-/

open scoped Matrix

/-! ## The embedded source: `src/mat_neuron/core.py`

A full parameter vector is `(a1, a2, b, w, tm, R, t1, t2, tv, tref)`
(indices 0–9); the reduced 9-parameter form drops `tref`. A full state vector
is `(V, θ1, θ2, θV, dθV)` (indices 0–4). Python exceptions are modelled by
`PyErr`; real arithmetic stands in for float arithmetic. -/

/-- Python exceptions that the modelled code can raise. -/
inductive PyErr where
  | nameError (name : String)
  | indexError
  deriving DecidableEq, Repr

/-- The 5×5 system matrix built by `impulse_matrix` (core.py lines 14–18):
`A = -[[1/tm,0,0,0,0],[0,1/t1,0,0,0],[0,0,1/t2,0,0],[0,0,0,1/tv,-1],[b/tm,0,0,0,1/tv]]`
with `(a1, a2, b, w, tm, R, t1, t2, tv, tref) = params`. -/
noncomputable def systemMatrix (p : Fin 10 → ℝ) : Matrix (Fin 5) (Fin 5) ℝ :=
  let b := p 2
  let tm := p 4
  let t1 := p 6
  let t2 := p 7
  let tv := p 8;
  -(Matrix.of ![![1 / tm, 0, 0, 0, 0],
                ![0, 1 / t1, 0, 0, 0],
                ![0, 0, 1 / t2, 0, 0],
                ![0, 0, 0, 1 / tv, -1],
                ![b / tm, 0, 0, 0, 1 / tv]])

/-- `impulse_matrix(params, dt)` (core.py lines 10–19): `linalg.expm(A * dt)`,
the matrix exponential of the system matrix scaled by the step size. The
function performs no validation of `params` or `dt`. -/
noncomputable def impulse_matrix (p : Fin 10 → ℝ) (dt : ℝ) : Matrix (Fin 5) (Fin 5) ℝ :=
  NormedSpace.exp ℝ (dt • systemMatrix p)

/-- The 3×3 system matrix built inside `predict_voltage` (core.py lines 57–59):
`A = -[[1/tm,0,0],[0,1/tv,-1],[b/tm,0,1/tv]]` with
`(a1, a2, b, w, tm, R, t1, t2, tv) = params`. -/
noncomputable def voltageSystemMatrix (p : Fin 9 → ℝ) : Matrix (Fin 3) (Fin 3) ℝ :=
  let b := p 2
  let tm := p 4
  let tv := p 8;
  -(Matrix.of ![![1 / tm, 0, 0],
                ![0, 1 / tv, -1],
                ![b / tm, 0, 1 / tv]])

/-- The transition matrix that line 60 of `predict_voltage`
(`Aexp = linalg.expm(A * dt)`) would compute if the name `linalg` were bound. -/
noncomputable def voltageAexp (p : Fin 9 → ℝ) (dt : ℝ) : Matrix (Fin 3) (Fin 3) ℝ :=
  NormedSpace.exp ℝ (dt • voltageSystemMatrix p)

/-- `predict_voltage(params, state, current, dt)` (core.py lines 43–70). After
the 3×3 system matrix `A` is built (lines 57–59), line 60 evaluates
`linalg.expm(A * dt)`; the name `linalg` is imported only inside the local
scope of `impulse_matrix` (line 12) and is unbound at module scope, so the
lookup fails with a `NameError` before the propagation loop is reached. -/
noncomputable def predict_voltage (p : Fin 9 → ℝ) (_state : Fin 5 → ℝ)
    (_current : List ℝ) (_dt : ℝ) : Except PyErr (List (Fin 3 → ℝ)) :=
  let _A := voltageSystemMatrix p
  Except.error (PyErr.nameError "linalg")

/-- The forcing vector of the `predict_voltage` loop (core.py lines 66–67):
`x = (R/tm * I[i], 0, R/tm * I[i] * b)`. -/
noncomputable def voltageForcing (p : Fin 9 → ℝ) (c : ℝ) : Fin 3 → ℝ :=
  let b := p 2
  let tm := p 4
  let R := p 5
  ![R / tm * c, 0, R / tm * c * b]

/-- One iteration of the `predict_voltage` loop body (core.py line 68):
`y = Aexp · y + x`. -/
noncomputable def voltageStep (Aexp : Matrix (Fin 3) (Fin 3) ℝ) (p : Fin 9 → ℝ)
    (y : Fin 3 → ℝ) (c : ℝ) : Fin 3 → ℝ :=
  Aexp.mulVec y + voltageForcing p c

/-- The propagation loop of `predict_voltage` (core.py lines 62–69),
parameterised by the transition matrix `Aexp` that line 60 would have
produced: row `i` of the output is the state after the update for sample `i`. -/
noncomputable def voltageLoop (Aexp : Matrix (Fin 3) (Fin 3) ℝ) (p : Fin 9 → ℝ) :
    (Fin 3 → ℝ) → List ℝ → List (Fin 3 → ℝ)
  | _, [] => []
  | y, c :: rest =>
    voltageStep Aexp p y c :: voltageLoop Aexp p (voltageStep Aexp p y c) rest

/-- The state of the `predict_voltage` loop after `n` updates, driven by the
sample sequence `I` (the `n`-fold unfolding of `voltageStep` from `y0`). -/
noncomputable def voltageIter (Aexp : Matrix (Fin 3) (Fin 3) ℝ) (p : Fin 9 → ℝ)
    (I : ℕ → ℝ) (y0 : Fin 3 → ℝ) : ℕ → Fin 3 → ℝ
  | 0 => y0
  | n + 1 => voltageStep Aexp p (voltageIter Aexp p I y0 n) (I n)

/-- C-style truncation toward zero: the effect of numpy `.astype('i')` on a
float value (core.py line 90). -/
noncomputable def truncTowardZero (x : ℝ) : ℤ :=
  if x < 0 then ⌈x⌉ else ⌊x⌋

/-- The numpy fancy assignment `spk[idx] = 1` into a fresh zero array of
length `N` (core.py lines 91–92): an index `v` with `0 ≤ v < N` sets bin `v`;
a negative `v` with `-N ≤ v` wraps around and sets bin `N + v`; any other
index raises `IndexError` (and no array is produced). -/
def npSetOnes (N : ℕ) : List ℤ → (ℕ → ℝ) → Except PyErr (ℕ → ℝ)
  | [], spk => Except.ok spk
  | v :: rest, spk =>
    if 0 ≤ v ∧ v < (N : ℤ) then
      npSetOnes N rest (fun i => if (i : ℤ) = v then 1 else spk i)
    else if -(N : ℤ) ≤ v ∧ v < 0 then
      npSetOnes N rest (fun i => if (i : ℤ) = (N : ℤ) + v then 1 else spk i)
    else Except.error PyErr.indexError

/-- One iteration of the `predict_adaptation` loop body (core.py lines 94–95):
`y = (A1 * y₁ + a1 * s, A2 * y₂ + a2 * s)` for the bin indicator value `s`. -/
noncomputable def adaptStep (A1 A2 a1 a2 : ℝ) (y : ℝ × ℝ) (s : ℝ) : ℝ × ℝ :=
  (A1 * y.1 + a1 * s, A2 * y.2 + a2 * s)

/-- The propagation loop of `predict_adaptation` (core.py lines 93–96): row `i`
of the output is the state after the update for bin `i`. -/
noncomputable def adaptLoop (A1 A2 a1 a2 : ℝ) : ℝ × ℝ → List ℝ → List (ℝ × ℝ)
  | _, [] => []
  | y, s :: rest =>
    adaptStep A1 A2 a1 a2 y s :: adaptLoop A1 A2 a1 a2 (adaptStep A1 A2 a1 a2 y s) rest

/-- `predict_adaptation(params, state, spikes, dt, N)` (core.py lines 73–97):
`A1 = exp(-dt/t1)`, `A2 = exp(-dt/t2)`; the spike argument is interpreted as a
list of spike times, converted to bin indices by `idx = (spikes / dt).astype('i')`
(line 90); the indicator array is built by `spk[idx] = 1` (lines 91–92), and the
closed-form diagonal recurrence runs over the `N` bins (lines 93–96). -/
noncomputable def predict_adaptation (p : Fin 9 → ℝ) (state : Fin 5 → ℝ)
    (spikes : List ℝ) (dt : ℝ) (N : ℕ) : Except PyErr (List (ℝ × ℝ)) :=
  let a1 := p 0
  let a2 := p 1
  let t1 := p 6
  let t2 := p 7
  let A1 := Real.exp (-dt / t1)
  let A2 := Real.exp (-dt / t2)
  let idx := spikes.map fun t => truncTowardZero (t / dt)
  match npSetOnes N idx (fun _ => 0) with
  | Except.error e => Except.error e
  | Except.ok spk =>
      Except.ok (adaptLoop A1 A2 a1 a2 (state 1, state 2) ((List.range N).map spk))

/-- `loglike_exp(V, H, params)` (core.py lines 100–108):
`V[:,0] - H[:,0] - H[:,1] - V[:,1] - params[3]`, with `V` the voltage-block
trajectory (columns `V, θV, dθV`) and `H` the adaptation trajectory
(columns `θ1, θ2`). -/
noncomputable def loglike_exp {N : ℕ} (V : Fin N → Fin 3 → ℝ) (H : Fin N → Fin 2 → ℝ)
    (p : Fin 10 → ℝ) : Fin N → ℝ :=
  fun i => V i 0 - H i 0 - H i 1 - V i 1 - p 3

/-! ## Parts of the system not present under `src/`

The full-state integrator (`_model.predict`) and the shared random stream
(`random_seed` / stochastic modes) live in a compiled extension that the
repository sources do not include; the definitions below model them from the
specification. -/

/-- Modelled from the spec: the forcing of the full-state recurrence (§4.4
item 1 and item 4 of the component design) — the same two-entry current
forcing as the voltage block (`R/tm·I` into row 0, `R/tm·I·b` into row 4),
plus the impulsive spike increments `a1·spk`, `a2·spk` into the adaptation
rows 1 and 2. -/
noncomputable def fullForcing (p : Fin 10 → ℝ) (c s : ℝ) : Fin 5 → ℝ :=
  let a1 := p 0
  let a2 := p 1
  let b := p 2
  let tm := p 4
  let R := p 5;
  ![R / tm * c, a1 * s, a2 * s, 0, R / tm * c * b]

/-- Modelled from the spec: one step of the full-state deterministic
recurrence of the integrator `_model.predict` (§4.4): transition matrix times
the 5-scalar state plus `fullForcing`. -/
noncomputable def fullStep (Aexp : Matrix (Fin 5) (Fin 5) ℝ) (p : Fin 10 → ℝ)
    (y : Fin 5 → ℝ) (c s : ℝ) : Fin 5 → ℝ :=
  Aexp.mulVec y + fullForcing p c s

/-- Modelled from the spec: the full-state trajectory after `n` steps, driven
by the current samples `I` and the spike indicator `spk`. -/
noncomputable def fullIter (Aexp : Matrix (Fin 5) (Fin 5) ℝ) (p : Fin 10 → ℝ)
    (I spk : ℕ → ℝ) (y0 : Fin 5 → ℝ) : ℕ → Fin 5 → ℝ
  | 0 => y0
  | n + 1 => fullStep Aexp p (fullIter Aexp p I spk y0 n) (I n) (spk n)

/-- The projection of the 5-scalar state onto the voltage block
`(V, θV, dθV)`: coordinates 0, 3, 4. -/
def voltageProj : Fin 3 → Fin 5 := ![0, 3, 4]

/-- The reduced 9-parameter vector obtained by dropping `tref` from a full
10-parameter vector. -/
def dropTref (p : Fin 10 → ℝ) : Fin 9 → ℝ :=
  ![p 0, p 1, p 2, p 3, p 4, p 5, p 6, p 7, p 8]

/-- Modelled from the spec: the shared process-wide random stream (§4.6 and
the `reseed` interface of §6), as a linear-congruential generator state. -/
def lcg (s : ℕ) : ℕ :=
  (1664525 * s + 1013904223) % 4294967296

/-- Modelled from the spec: the state of the shared random stream. -/
structure Rng where
  state : ℕ
  deriving DecidableEq, Repr

/-- Modelled from the spec: `reseed(seed)` (`core.random_seed` in the tests)
resets the shared random stream to the given seed. -/
def reseed (seed : ℕ) : Rng :=
  ⟨seed⟩

/-- Modelled from the spec: stochastic-Poisson integration (§4.4 item 3).
Per sample, the state advances by `fullStep` driven by the *previous* bin's
spike indicator `sPrev`, so a spike at bin `i` delivers the undecayed
increments `(a1, a2)` to bin `i+1` — the same causality rule as §4.3 and as
`fullIter`. The log conditional intensity `L = V - θ1 - θ2 - θV - w` is
evaluated at the new state, one uniform variate is drawn from the shared
stream, and a spike is recorded iff it is not blocked by refractory gating
and the variate falls below the thinned-Poisson acceptance level `exp(L)·dt`.
Refractory gating tracks the remaining refractory time `refr`: it is reduced
by `dt` each bin, a spike is blocked while it stays positive, and a recorded
spike resets it to `tref` (§9 leaves the exact bookkeeping open; here `tref`
is measured from the bin after the spike). Returns the spike indicator train
and the advanced stream. -/
noncomputable def predictStoch (Aexp : Matrix (Fin 5) (Fin 5) ℝ) (p : Fin 10 → ℝ)
    (dt : ℝ) : (Fin 5 → ℝ) → ℝ → ℝ → Rng → List ℝ → List Bool × Rng
  | _, _, _, r, [] => ([], r)
  | y, sPrev, refr, r, c :: rest =>
    let y2 := fullStep Aexp p y c sPrev
    let L := y2 0 - y2 1 - y2 2 - y2 3 - p 3
    let u : ℝ := (lcg r.state : ℝ) / 4294967296
    let refr2 := refr - dt
    let s : Bool := decide (refr2 ≤ 0 ∧ u < Real.exp L * dt)
    let tail := predictStoch Aexp p dt y2 (if s then 1 else 0)
      (if s then p 9 else refr2) ⟨lcg r.state⟩ rest
    (s :: tail.1, tail.2)

/-- Modelled from the spec: the experiment of `test_poisson_spiker`
(test_model.py lines 45–53) — two stochastic runs over the same parameters,
initial state and current trace, each preceded by `reseed(seed)` on the
shared stream; both start with no pending spike and no remaining refractory
time, and the pair of resulting spike trains is returned. -/
noncomputable def twoSeededRuns (seed : ℕ) (p : Fin 10 → ℝ) (dt : ℝ)
    (y0 : Fin 5 → ℝ) (current : List ℝ) : List Bool × List Bool :=
  let run1 := predictStoch (impulse_matrix p dt) p dt y0 0 0 (reseed seed) current
  let run2 := predictStoch (impulse_matrix p dt) p dt y0 0 0 (reseed seed) current
  (run1.1, run2.1)

/-! ## Entries of matrix powers and matrix exponentials -/

/-- Entry `(i, j)` of `NormedSpace.exp ℝ M` is the sum of the entrywise
exponential series `∑ (k!)⁻¹ * (M ^ k) i j`. -/
theorem exp_entry_hasSum {N : ℕ} (M : Matrix (Fin N) (Fin N) ℝ) (i j : Fin N) :
    HasSum (fun k : ℕ => ((k.factorial : ℝ)⁻¹ * (M ^ k) i j))
      (NormedSpace.exp ℝ M i j) := by
  letI : SeminormedRing (Matrix (Fin N) (Fin N) ℝ) := Matrix.linftyOpSemiNormedRing
  letI : NormedRing (Matrix (Fin N) (Fin N) ℝ) := Matrix.linftyOpNormedRing
  letI : NormedAlgebra ℝ (Matrix (Fin N) (Fin N) ℝ) := Matrix.linftyOpNormedAlgebra
  have h := NormedSpace.exp_series_hasSum_exp' (𝕂 := ℝ) M
  have h2 := Pi.hasSum.mp (Pi.hasSum.mp h i) j
  simpa using h2

/-- The scalar exponential series, in the same shape as `exp_entry_hasSum`. -/
theorem real_exp_hasSum (y : ℝ) :
    HasSum (fun k : ℕ => ((k.factorial : ℝ)⁻¹ * y ^ k)) (Real.exp y) := by
  have h := NormedSpace.exp_series_hasSum_exp' (𝕂 := ℝ) (𝔸 := ℝ) y
  rw [Real.exp_eq_exp_ℝ]
  simpa [smul_eq_mul] using h

/-- Powers of a matrix that is triangular with respect to an ordering weight `o`
stay triangular: entries with `o i < o j` vanish. -/
theorem pow_triangular_entry_eq_zero {N : ℕ} (M : Matrix (Fin N) (Fin N) ℝ)
    (o : Fin N → ℕ) (h : ∀ i j, o i < o j → M i j = 0) :
    ∀ (k : ℕ) (i j : Fin N), o i < o j → (M ^ k) i j = 0 := by
  intro k
  induction k with
  | zero =>
    intro i j hij
    have hne : i ≠ j := fun e => by subst e; exact lt_irrefl _ hij
    simp [Matrix.one_apply, hne]
  | succ k ih =>
    intro i j hij
    rw [pow_succ, Matrix.mul_apply]
    refine Finset.sum_eq_zero fun l _ => ?_
    rcases lt_or_le (o i) (o l) with hl | hl
    · rw [ih i l hl, zero_mul]
    · rw [h l j (lt_of_le_of_lt hl hij), mul_zero]

/-- Diagonal entries of powers of a triangular matrix are powers of the
diagonal entries (the weight `o` must separate the indices). -/
theorem pow_triangular_diag {N : ℕ} (M : Matrix (Fin N) (Fin N) ℝ)
    (o : Fin N → ℕ) (ho : Function.Injective o)
    (h : ∀ i j, o i < o j → M i j = 0) :
    ∀ (k : ℕ) (i : Fin N), (M ^ k) i i = M i i ^ k := by
  intro k
  induction k with
  | zero => intro i; simp [Matrix.one_apply]
  | succ k ih =>
    intro i
    rw [pow_succ, Matrix.mul_apply, Finset.sum_eq_single i]
    · rw [ih, pow_succ]
    · intro l _ hl
      have hne : o l ≠ o i := fun e => hl (ho e)
      rcases lt_or_gt_of_ne hne with hlt | hgt
      · rw [h l i hlt, mul_zero]
      · rw [pow_triangular_entry_eq_zero M o h k i l hgt, zero_mul]
    · intro habs; exact absurd (Finset.mem_univ i) habs

/-- Diagonal entries of the exponential of a triangular matrix are the scalar
exponentials of the diagonal entries. -/
theorem exp_triangular_diag {N : ℕ} (M : Matrix (Fin N) (Fin N) ℝ)
    (o : Fin N → ℕ) (ho : Function.Injective o)
    (h : ∀ i j, o i < o j → M i j = 0) (i : Fin N) :
    NormedSpace.exp ℝ M i i = Real.exp (M i i) := by
  have h1 := exp_entry_hasSum M i i
  have h2 : HasSum (fun k : ℕ => ((k.factorial : ℝ)⁻¹ * M i i ^ k))
      (NormedSpace.exp ℝ M i i) := by
    refine h1.congr_fun fun k => ?_
    rw [pow_triangular_diag M o ho h k i]
  exact h2.unique (real_exp_hasSum (M i i))

/-- If row `i` of `M` is supported on the diagonal alone, the same holds for
every power, whose row `i` carries `(M i i) ^ k`. -/
theorem pow_row_single {N : ℕ} (M : Matrix (Fin N) (Fin N) ℝ) (i : Fin N)
    (h : ∀ j, j ≠ i → M i j = 0) :
    ∀ (k : ℕ) (j : Fin N), (M ^ k) i j = M i i ^ k * (if j = i then 1 else 0) := by
  intro k
  induction k with
  | zero =>
    intro j
    rcases eq_or_ne j i with rfl | hne
    · simp [Matrix.one_apply]
    · simp [Matrix.one_apply, hne, Ne.symm hne]
  | succ k ih =>
    intro j
    rw [pow_succ, Matrix.mul_apply, Finset.sum_eq_single i]
    · rcases eq_or_ne j i with rfl | hne
      · rw [ih]; simp [pow_succ]
      · rw [ih, h j (by exact hne)]
        · simp [hne]
    · intro l _ hl
      rw [ih l, if_neg hl, mul_zero, zero_mul]
    · intro habs; exact absurd (Finset.mem_univ i) habs

/-- Row `i` of the exponential of a matrix whose row `i` is supported on the
diagonal: the exponential of the diagonal entry, on the diagonal alone. -/
theorem exp_row_single {N : ℕ} (M : Matrix (Fin N) (Fin N) ℝ) (i : Fin N)
    (h : ∀ j, j ≠ i → M i j = 0) (j : Fin N) :
    NormedSpace.exp ℝ M i j = Real.exp (M i i) * (if j = i then 1 else 0) := by
  have h1 := (exp_entry_hasSum M i j).congr_fun fun k => by
    rw [pow_row_single M i h k j]
  rcases eq_or_ne j i with rfl | hne
  · have h2 : HasSum (fun k : ℕ => ((k.factorial : ℝ)⁻¹ * M j j ^ k))
        (NormedSpace.exp ℝ M j j) := h1.congr_fun fun k => by simp
    rw [if_pos rfl, mul_one]
    exact h2.unique (real_exp_hasSum (M j j))
  · have h0 : HasSum (fun _ : ℕ => (0 : ℝ)) (NormedSpace.exp ℝ M i j) :=
      h1.congr_fun fun k => by simp [hne]
    rw [if_neg hne, mul_zero]
    simpa using h0.unique hasSum_zero

/-- If the rows of `M` indexed by the range of an injection `ι` are supported on
the columns in the range of `ι`, powers of `M` restrict to powers of the
submatrix, and the off-block entries of those rows stay zero. -/
theorem pow_block {N m : ℕ} (M : Matrix (Fin N) (Fin N) ℝ) (ι : Fin m → Fin N)
    (hι : Function.Injective ι)
    (h : ∀ (i : Fin m) (c : Fin N), (∀ j, ι j ≠ c) → M (ι i) c = 0) :
    ∀ k : ℕ,
      (∀ i j, (M ^ k) (ι i) (ι j) = ((M.submatrix ι ι) ^ k) i j) ∧
      (∀ (i : Fin m) (c : Fin N), (∀ j, ι j ≠ c) → (M ^ k) (ι i) c = 0) := by
  intro k
  induction k with
  | zero =>
    constructor
    · intro i j
      by_cases hij : i = j
      · subst hij; simp [Matrix.one_apply]
      · have : ι i ≠ ι j := fun e => hij (hι e)
        simp [Matrix.one_apply, hij, this]
    · intro i c hc
      have : ι i ≠ c := hc i
      simp [Matrix.one_apply, this]
  | succ k ih =>
    have key : ∀ (i : Fin m) (c : Fin N),
        (M ^ (k + 1)) (ι i) c = ∑ l : Fin m, ((M.submatrix ι ι) ^ k) i l * M (ι l) c := by
      intro i c
      rw [pow_succ, Matrix.mul_apply]
      rw [← Finset.sum_subset (Finset.subset_univ (Finset.univ.image ι))]
      · rw [Finset.sum_image (fun a _ b _ hab => hι hab)]
        exact Finset.sum_congr rfl fun l _ => by rw [(ih.1 i l)]
      · intro x _ hx
        have hxr : ∀ j, ι j ≠ x := by
          intro j hj
          exact hx (Finset.mem_image.mpr ⟨j, Finset.mem_univ j, hj⟩)
        rw [ih.2 i x hxr, zero_mul]
    constructor
    · intro i j
      rw [key i (ι j), pow_succ, Matrix.mul_apply]
      exact Finset.sum_congr rfl fun l _ => by rw [Matrix.submatrix_apply]
    · intro i c hc
      rw [key i c]
      exact Finset.sum_eq_zero fun l _ => by rw [h l c hc, mul_zero]

/-- Block entries of the exponential: under the hypotheses of `pow_block`, the
exponential of `M` restricted to the block is the exponential of the submatrix. -/
theorem exp_block_eq {N m : ℕ} (M : Matrix (Fin N) (Fin N) ℝ) (ι : Fin m → Fin N)
    (hι : Function.Injective ι)
    (h : ∀ (i : Fin m) (c : Fin N), (∀ j, ι j ≠ c) → M (ι i) c = 0) (i j : Fin m) :
    NormedSpace.exp ℝ M (ι i) (ι j) = NormedSpace.exp ℝ (M.submatrix ι ι) i j := by
  have h1 := (exp_entry_hasSum M (ι i) (ι j)).congr_fun fun k => by
    rw [(pow_block M ι hι h k).1 i j]
  exact h1.unique (exp_entry_hasSum (M.submatrix ι ι) i j)

/-- Off-block entries of the exponential: under the hypotheses of `pow_block`,
entries of `exp M` in a blocked row but outside the block columns are zero. -/
theorem exp_block_offdiag_eq_zero {N m : ℕ} (M : Matrix (Fin N) (Fin N) ℝ)
    (ι : Fin m → Fin N) (hι : Function.Injective ι)
    (h : ∀ (i : Fin m) (c : Fin N), (∀ j, ι j ≠ c) → M (ι i) c = 0)
    (i : Fin m) (c : Fin N) (hc : ∀ j, ι j ≠ c) :
    NormedSpace.exp ℝ M (ι i) c = 0 := by
  have h1 := (exp_entry_hasSum M (ι i) c).congr_fun fun k => by
    rw [(pow_block M ι hι h k).2 i c hc, mul_zero]
  simpa using h1.unique hasSum_zero


/-! ## Structure of the two system matrices -/

/-- The ordering weight under which the 5×5 system matrix is triangular:
voltage feeds `dθV/dt`, which feeds `θV`; `θ1` and `θ2` are isolated. -/
def diagOrder : Fin 5 → ℕ := ![0, 3, 4, 2, 1]

/-- The scaled 5×5 system matrix is triangular for `diagOrder`. -/
theorem systemMatrix_triangular (p : Fin 10 → ℝ) (dt : ℝ) :
    ∀ i j, diagOrder i < diagOrder j → (dt • systemMatrix p) i j = 0 := by
  intro i j hij
  fin_cases i <;> fin_cases j <;>
    simp_all [diagOrder, systemMatrix, Matrix.smul_apply, Matrix.neg_apply,
      Matrix.vecHead, Matrix.vecTail]

/-- The five diagonal entries of the scaled 5×5 system matrix. -/
theorem systemMatrix_diag (p : Fin 10 → ℝ) (dt : ℝ) :
    (dt • systemMatrix p) 0 0 = -dt / p 4 ∧ (dt • systemMatrix p) 1 1 = -dt / p 6 ∧
    (dt • systemMatrix p) 2 2 = -dt / p 7 ∧ (dt • systemMatrix p) 3 3 = -dt / p 8 ∧
    (dt • systemMatrix p) 4 4 = -dt / p 8 := by
  refine ⟨?_, ?_, ?_, ?_, ?_⟩ <;>
    · simp [systemMatrix, Matrix.smul_apply, Matrix.neg_apply]
      ring

/-- The diagonal of `impulse_matrix(params, dt)`, for arbitrary real
parameters and step size: `exp(-dt/tm), exp(-dt/t1), exp(-dt/t2), exp(-dt/tv),
exp(-dt/tv)`. No validity of the parameters is needed: the function performs
no checks, and the triangular structure of the system matrix gives these
values whatever the signs of the entries. -/
theorem impulse_matrix_diag (p : Fin 10 → ℝ) (dt : ℝ) :
    impulse_matrix p dt 0 0 = Real.exp (-dt / p 4) ∧
    impulse_matrix p dt 1 1 = Real.exp (-dt / p 6) ∧
    impulse_matrix p dt 2 2 = Real.exp (-dt / p 7) ∧
    impulse_matrix p dt 3 3 = Real.exp (-dt / p 8) ∧
    impulse_matrix p dt 4 4 = Real.exp (-dt / p 8) := by
  have ho : Function.Injective diagOrder := by decide
  have htri := systemMatrix_triangular p dt
  have hdiag := systemMatrix_diag p dt
  have key := fun i => exp_triangular_diag (dt • systemMatrix p) diagOrder ho htri i
  refine ⟨?_, ?_, ?_, ?_, ?_⟩
  · rw [impulse_matrix, key 0, hdiag.1]
  · rw [impulse_matrix, key 1, hdiag.2.1]
  · rw [impulse_matrix, key 2, hdiag.2.2.1]
  · rw [impulse_matrix, key 3, hdiag.2.2.2.1]
  · rw [impulse_matrix, key 4, hdiag.2.2.2.2]

/-- Projections of `dropTref`: the reduced vector agrees with the full one on
the nine leading parameters. -/
@[simp] theorem dropTref_zero (p : Fin 10 → ℝ) : dropTref p 0 = p 0 := rfl

/-- Projection of `dropTref` at index 1. -/
@[simp] theorem dropTref_one (p : Fin 10 → ℝ) : dropTref p 1 = p 1 := rfl

/-- Projection of `dropTref` at index 2. -/
@[simp] theorem dropTref_two (p : Fin 10 → ℝ) : dropTref p 2 = p 2 := rfl

/-- Projection of `dropTref` at index 3. -/
@[simp] theorem dropTref_three (p : Fin 10 → ℝ) : dropTref p 3 = p 3 := rfl

/-- Projection of `dropTref` at index 4. -/
@[simp] theorem dropTref_four (p : Fin 10 → ℝ) : dropTref p 4 = p 4 := rfl

/-- Projection of `dropTref` at index 5. -/
@[simp] theorem dropTref_five (p : Fin 10 → ℝ) : dropTref p 5 = p 5 := rfl

/-- Projection of `dropTref` at index 6. -/
@[simp] theorem dropTref_six (p : Fin 10 → ℝ) : dropTref p 6 = p 6 := rfl

/-- Projection of `dropTref` at index 7. -/
@[simp] theorem dropTref_seven (p : Fin 10 → ℝ) : dropTref p 7 = p 7 := rfl

/-- Projection of `dropTref` at index 8. -/
@[simp] theorem dropTref_eight (p : Fin 10 → ℝ) : dropTref p 8 = p 8 := rfl

/-- The blocked rows `0, 3, 4` of the scaled 5×5 system matrix have no entries
in the adaptation columns `1, 2`. -/
theorem systemMatrix_block (p : Fin 10 → ℝ) (dt : ℝ) :
    ∀ (i : Fin 3) (c : Fin 5), (∀ j, voltageProj j ≠ c) →
      (dt • systemMatrix p) (voltageProj i) c = 0 := by
  intro i c hc
  fin_cases i <;> fin_cases c <;>
    first
      | exact absurd rfl (hc 0)
      | exact absurd rfl (hc 1)
      | exact absurd rfl (hc 2)
      | simp [voltageProj, systemMatrix, Matrix.smul_apply, Matrix.neg_apply,
          Matrix.vecHead, Matrix.vecTail]

/-- Restricting the scaled 5×5 system matrix to the voltage block gives
exactly the scaled 3×3 system matrix of `predict_voltage` (with `tref`
dropped from the parameters). -/
theorem systemMatrix_submatrix (p : Fin 10 → ℝ) (dt : ℝ) :
    (dt • systemMatrix p).submatrix voltageProj voltageProj =
      dt • voltageSystemMatrix (dropTref p) := by
  ext i j
  fin_cases i <;> fin_cases j <;>
    simp [voltageProj, systemMatrix, voltageSystemMatrix,
      Matrix.smul_apply, Matrix.neg_apply, Matrix.vecHead, Matrix.vecTail]

/-- Voltage-block entries of the full transition matrix coincide with the
3×3 transition matrix of `predict_voltage`. -/
theorem impulse_matrix_block (p : Fin 10 → ℝ) (dt : ℝ) (i j : Fin 3) :
    impulse_matrix p dt (voltageProj i) (voltageProj j) =
      voltageAexp (dropTref p) dt i j := by
  have hι : Function.Injective voltageProj := by decide
  rw [impulse_matrix,
    exp_block_eq (dt • systemMatrix p) voltageProj hι (systemMatrix_block p dt) i j,
    systemMatrix_submatrix p dt, voltageAexp]

/-- Blocked rows of the full transition matrix are zero on the adaptation
columns. -/
theorem impulse_matrix_block_zero (p : Fin 10 → ℝ) (dt : ℝ) (i : Fin 3)
    (c : Fin 5) (hc : ∀ j, voltageProj j ≠ c) :
    impulse_matrix p dt (voltageProj i) c = 0 := by
  have hι : Function.Injective voltageProj := by decide
  rw [impulse_matrix]
  exact exp_block_offdiag_eq_zero (dt • systemMatrix p) voltageProj hι
    (systemMatrix_block p dt) i c hc

/-- A matrix whose blocked rows restrict to `B` and vanish off the block acts
on a vector, in the blocked coordinates, exactly as `B` acts on the projected
vector. -/
theorem mulVec_block {N m : ℕ} (E : Matrix (Fin N) (Fin N) ℝ)
    (B : Matrix (Fin m) (Fin m) ℝ) (ι : Fin m → Fin N) (hι : Function.Injective ι)
    (hB : ∀ i j, E (ι i) (ι j) = B i j)
    (h0 : ∀ (i : Fin m) (c : Fin N), (∀ j, ι j ≠ c) → E (ι i) c = 0)
    (v : Fin N → ℝ) (i : Fin m) :
    E.mulVec v (ι i) = B.mulVec (fun j => v (ι j)) i := by
  rw [Matrix.mulVec, Matrix.mulVec, Matrix.dotProduct, Matrix.dotProduct]
  rw [← Finset.sum_subset (Finset.subset_univ (Finset.univ.image ι))]
  · rw [Finset.sum_image (fun a _ b _ hab => hι hab)]
    exact Finset.sum_congr rfl fun l _ => by rw [hB i l]
  · intro x _ hx
    have hxr : ∀ j, ι j ≠ x := by
      intro j hj
      exact hx (Finset.mem_image.mpr ⟨j, Finset.mem_univ j, hj⟩)
    rw [h0 i x hxr, zero_mul]

/-- The full-state forcing restricted to the voltage block is the
`predict_voltage` forcing: the spike increments live only in the adaptation
rows. -/
theorem fullForcing_block (p : Fin 10 → ℝ) (c s : ℝ) (i : Fin 3) :
    fullForcing p c s (voltageProj i) = voltageForcing (dropTref p) c i := by
  fin_cases i <;>
    simp [fullForcing, voltageForcing, voltageProj,
      Matrix.vecHead, Matrix.vecTail]

/-! ## The voltage row of the reduced system -/

/-- Row 0 of the scaled 3×3 system matrix is supported on the diagonal:
the voltage dynamic is not driven by the threshold block. -/
theorem voltageSystemMatrix_row0 (p : Fin 9 → ℝ) (dt : ℝ) :
    ∀ j, j ≠ 0 → (dt • voltageSystemMatrix p) 0 j = 0 := by
  intro j hj
  fin_cases j
  · exact absurd rfl hj
  · simp [voltageSystemMatrix, Matrix.smul_apply, Matrix.neg_apply]
  · simp [voltageSystemMatrix, Matrix.smul_apply, Matrix.neg_apply,
      Matrix.vecHead, Matrix.vecTail]

/-- Row 0 of the 3×3 transition matrix: `exp(-dt/tm)` on the diagonal and
zero elsewhere. -/
theorem voltageAexp_row0 (p : Fin 9 → ℝ) (dt : ℝ) (j : Fin 3) :
    voltageAexp p dt 0 j = Real.exp (-dt / p 4) * (if j = 0 then 1 else 0) := by
  have h := exp_row_single (dt • voltageSystemMatrix p) 0
    (voltageSystemMatrix_row0 p dt) j
  rw [voltageAexp, h]
  have h00 : (dt • voltageSystemMatrix p) 0 0 = -dt / p 4 := by
    simp [voltageSystemMatrix, Matrix.smul_apply, Matrix.neg_apply]
    ring
  rw [h00]

/-- The voltage component of the `predict_voltage` recurrence is the scalar
affine recurrence `v ← exp(-dt/tm) · v + R/tm · I[n]`. -/
theorem voltageIter_volt_succ (p : Fin 9 → ℝ) (dt : ℝ) (I : ℕ → ℝ)
    (y0 : Fin 3 → ℝ) (n : ℕ) :
    voltageIter (voltageAexp p dt) p I y0 (n + 1) 0 =
      Real.exp (-dt / p 4) * voltageIter (voltageAexp p dt) p I y0 n 0 +
        p 5 / p 4 * I n := by
  show voltageStep (voltageAexp p dt) p (voltageIter (voltageAexp p dt) p I y0 n) (I n) 0 = _
  rw [voltageStep]
  have hmv : (voltageAexp p dt).mulVec (voltageIter (voltageAexp p dt) p I y0 n) 0 =
      Real.exp (-dt / p 4) * voltageIter (voltageAexp p dt) p I y0 n 0 := by
    rw [Matrix.mulVec, Matrix.dotProduct, Fin.sum_univ_three]
    rw [voltageAexp_row0 p dt 0, voltageAexp_row0 p dt 1, voltageAexp_row0 p dt 2]
    rw [if_pos rfl, if_neg (show (1 : Fin 3) ≠ 0 by decide),
      if_neg (show (2 : Fin 3) ≠ 0 by decide)]
    ring
  rw [Pi.add_apply, hmv]
  simp [voltageForcing, Matrix.vecHead, Matrix.vecTail]

/-- Convergence of the `predict_voltage` voltage recurrence under a current
that is constant from bin `m` onward: the voltage tends to
`R·A/tm / (1 - exp(-dt/tm))` — the fixed point of the affine recurrence. -/
theorem voltage_tendsto (p : Fin 9 → ℝ) (dt A : ℝ) (y0 : Fin 3 → ℝ)
    (I : ℕ → ℝ) (m : ℕ) (htm : 0 < p 4) (hdt : 0 < dt)
    (hI : ∀ n, m ≤ n → I n = A) :
    Filter.Tendsto (fun n => voltageIter (voltageAexp p dt) p I y0 n 0)
      Filter.atTop (nhds (p 5 * A / p 4 / (1 - Real.exp (-dt / p 4)))) := by
  set v : ℕ → ℝ := fun n => voltageIter (voltageAexp p dt) p I y0 n 0 with hv
  set q : ℝ := Real.exp (-dt / p 4) with hq
  set L : ℝ := p 5 * A / p 4 / (1 - q) with hL
  have hq0 : 0 < q := Real.exp_pos _
  have hq1 : q < 1 := by
    rw [hq, Real.exp_lt_one_iff]
    exact div_neg_of_neg_of_pos (neg_neg_iff_pos.mpr hdt) htm
  have hne : 1 - q ≠ 0 := (sub_pos.mpr hq1).ne'
  have hcL : (1 - q) * L = p 5 / p 4 * A := by
    rw [hL]
    field_simp
    ring
  have key : ∀ k, v (m + k) = q ^ k * (v m - L) + L := by
    intro k
    induction k with
    | zero => simp
    | succ k ih =>
      have hstep := voltageIter_volt_succ p dt I y0 (m + k)
      have hIk : I (m + k) = A := hI _ (Nat.le_add_right m k)
      have hv1 : v (m + (k + 1)) = q * v (m + k) + p 5 / p 4 * A := by
        rw [hv]
        show voltageIter (voltageAexp p dt) p I y0 ((m + k) + 1) 0 = _
        rw [hstep, hIk, ← hq, ← hv]
      rw [hv1, ih, ← hcL]
      ring
  have hpow : Filter.Tendsto (fun k : ℕ => q ^ k) Filter.atTop (nhds 0) :=
    tendsto_pow_atTop_nhds_zero_of_lt_one hq0.le hq1
  have hshift : Filter.Tendsto (fun k => v (m + k)) Filter.atTop (nhds L) := by
    have h2 : Filter.Tendsto (fun k : ℕ => q ^ k * (v m - L) + L)
        Filter.atTop (nhds (0 * (v m - L) + L)) :=
      ((hpow.mul_const (v m - L)).add_const L)
    rw [zero_mul, zero_add] at h2
    exact h2.congr fun k => (key k).symm
  rw [← Filter.tendsto_add_atTop_iff_nat m]
  exact hshift.congr fun k => by rw [Nat.add_comm]

/-! ## The `predict_voltage` loop as the per-sample recurrence -/

/-- The loop emits one row per input sample. -/
theorem voltageLoop_length (Aexp : Matrix (Fin 3) (Fin 3) ℝ) (p : Fin 9 → ℝ) :
    ∀ (y : Fin 3 → ℝ) (L : List ℝ), (voltageLoop Aexp p y L).length = L.length := by
  intro y L
  induction L generalizing y with
  | nil => rfl
  | cons c rest ih => simp [voltageLoop, ih]

/-- The loop over samples `m, m+1, …, m+n-1`, started from the state after `m`
updates, lists the states after `m+1, …, m+n` updates. -/
theorem voltageLoop_range' (Aexp : Matrix (Fin 3) (Fin 3) ℝ) (p : Fin 9 → ℝ)
    (I : ℕ → ℝ) (y0 : Fin 3 → ℝ) :
    ∀ (n m : ℕ),
      voltageLoop Aexp p (voltageIter Aexp p I y0 m) ((List.range' m n).map I) =
        (List.range' m n).map fun k => voltageIter Aexp p I y0 (k + 1) := by
  intro n
  induction n with
  | zero => intro m; rfl
  | succ n ih =>
    intro m
    rw [List.range'_succ, List.map_cons, List.map_cons]
    show voltageStep Aexp p (voltageIter Aexp p I y0 m) (I m) ::
        voltageLoop Aexp p (voltageStep Aexp p (voltageIter Aexp p I y0 m) (I m))
          ((List.range' (m + 1) n).map I) = _
    rw [show voltageStep Aexp p (voltageIter Aexp p I y0 m) (I m) =
        voltageIter Aexp p I y0 (m + 1) from rfl, ih (m + 1)]

/-! ## The `predict_adaptation` loop and its input handling -/

/-- Rows strictly before bin `i` of the adaptation loop do not depend on the
indicator value at bin `i`. -/
theorem adaptLoop_set_before (A1 A2 a1 a2 : ℝ) :
    ∀ (spk : List ℝ) (i j : ℕ) (v w : ℝ) (y : ℝ × ℝ), j < i →
      (adaptLoop A1 A2 a1 a2 y (spk.set i v)).getD j (0, 0) =
        (adaptLoop A1 A2 a1 a2 y (spk.set i w)).getD j (0, 0) := by
  intro spk
  induction spk with
  | nil => intro i j v w y _; rfl
  | cons s rest ih =>
    intro i j v w y hj
    cases i with
    | zero => exact absurd hj (Nat.not_lt_zero j)
    | succ i =>
      rw [List.set_cons_succ, List.set_cons_succ]
      cases j with
      | zero => rfl
      | succ j =>
        show (adaptLoop A1 A2 a1 a2 (adaptStep A1 A2 a1 a2 y s) (rest.set i v)).getD j (0, 0) =
          (adaptLoop A1 A2 a1 a2 (adaptStep A1 A2 a1 a2 y s) (rest.set i w)).getD j (0, 0)
        exact ih i j v w _ (Nat.lt_of_succ_lt_succ hj)

/-- Row `i` of the adaptation loop responds to the indicator at bin `i`
immediately: setting bin `i` to 1 rather than 0 adds exactly `(a1, a2)` to
row `i` itself. -/
theorem adaptLoop_set_at (A1 A2 a1 a2 : ℝ) :
    ∀ (spk : List ℝ) (i : ℕ) (y : ℝ × ℝ), i < spk.length →
      (adaptLoop A1 A2 a1 a2 y (spk.set i 1)).getD i (0, 0) =
        (adaptLoop A1 A2 a1 a2 y (spk.set i 0)).getD i (0, 0) + (a1, a2) := by
  intro spk
  induction spk with
  | nil => intro i y hi; exact absurd hi (Nat.not_lt_zero i)
  | cons s rest ih =>
    intro i y hi
    cases i with
    | zero =>
      show adaptStep A1 A2 a1 a2 y 1 = adaptStep A1 A2 a1 a2 y 0 + (a1, a2)
      rw [adaptStep, adaptStep, Prod.mk_add_mk]
      refine Prod.ext ?_ ?_ <;> simp
    | succ i =>
      rw [List.set_cons_succ, List.set_cons_succ]
      show (adaptLoop A1 A2 a1 a2 (adaptStep A1 A2 a1 a2 y s) (rest.set i 1)).getD i (0, 0) =
        (adaptLoop A1 A2 a1 a2 (adaptStep A1 A2 a1 a2 y s) (rest.set i 0)).getD i (0, 0) + (a1, a2)
      exact ih i _ (Nat.lt_of_succ_lt_succ hi)

/-- `npSetOnes` succeeds exactly when every index lies in `[-N, N)`. -/
theorem npSetOnes_isOk (N : ℕ) :
    ∀ (idx : List ℤ) (spk : ℕ → ℝ),
      (npSetOnes N idx spk).isOk = true ↔
        ∀ v ∈ idx, -(N : ℤ) ≤ v ∧ v < (N : ℤ) := by
  intro idx
  induction idx with
  | nil => intro spk; simp [npSetOnes, Except.isOk, Except.toBool]
  | cons v rest ih =>
    intro spk
    rw [npSetOnes]
    split_ifs with h1 h2
    · rw [ih]
      constructor
      · intro hall u hu
        rcases List.mem_cons.mp hu with rfl | hu2
        · exact ⟨le_trans (by omega) h1.1, h1.2⟩
        · exact hall u hu2
      · intro hall u hu
        exact hall u (List.mem_cons_of_mem v hu)
    · rw [ih]
      constructor
      · intro hall u hu
        rcases List.mem_cons.mp hu with rfl | hu2
        · exact ⟨h2.1, lt_of_lt_of_le h2.2 (by omega)⟩
        · exact hall u hu2
      · intro hall u hu
        exact hall u (List.mem_cons_of_mem v hu)
    · constructor
      · intro habs
        exact absurd habs (by simp [Except.isOk, Except.toBool])
      · intro hall
        exact absurd (hall v (List.mem_cons_self v rest)) (by omega)

/-! ## The claims -/

/-- C2: for every parameter vector with positive time constants `tm, t1, t2,
tv` and every `dt > 0`, the diagonal of the 5×5 matrix returned by
`impulse_matrix` equals `(exp(-dt/tm), exp(-dt/t1), exp(-dt/t2), exp(-dt/tv),
exp(-dt/tv))`: the `θV` and `dθV/dt` rows both carry the `tv` exponent on the
diagonal despite their off-diagonal coupling. -/
theorem claim_C2 (p : Fin 10 → ℝ) (dt : ℝ) (_htm : 0 < p 4) (_ht1 : 0 < p 6)
    (_ht2 : 0 < p 7) (_htv : 0 < p 8) (_hdt : 0 < dt) :
    impulse_matrix p dt 0 0 = Real.exp (-dt / p 4) ∧
    impulse_matrix p dt 1 1 = Real.exp (-dt / p 6) ∧
    impulse_matrix p dt 2 2 = Real.exp (-dt / p 7) ∧
    impulse_matrix p dt 3 3 = Real.exp (-dt / p 8) ∧
    impulse_matrix p dt 4 4 = Real.exp (-dt / p 8) :=
  impulse_matrix_diag p dt

/-- Witness for C2: the diagonal property at the all-ones parameter vector
with `dt = 1`. -/
theorem claim_C2_witness :
    (0 : ℝ) < 1 ∧
      (impulse_matrix (fun _ => 1) 1 0 0 = Real.exp (-1 / 1) ∧
       impulse_matrix (fun _ => 1) 1 1 1 = Real.exp (-1 / 1) ∧
       impulse_matrix (fun _ => 1) 1 2 2 = Real.exp (-1 / 1) ∧
       impulse_matrix (fun _ => 1) 1 3 3 = Real.exp (-1 / 1) ∧
       impulse_matrix (fun _ => 1) 1 4 4 = Real.exp (-1 / 1)) :=
  ⟨by norm_num,
   claim_C2 (fun _ => 1) 1 (by norm_num) (by norm_num) (by norm_num)
     (by norm_num) (by norm_num)⟩

/-- C3: every call to `predict_voltage` fails with a `NameError` on the name
`linalg` before computing anything: `linalg` is imported only in the local
scope of `impulse_matrix` and is unbound at module level when line 60
(`Aexp = linalg.expm(A * dt)`) runs, so `predict_voltage` can never return a
trajectory. -/
theorem claim_C3 (p : Fin 9 → ℝ) (state : Fin 5 → ℝ) (current : List ℝ) (dt : ℝ) :
    predict_voltage p state current dt = Except.error (PyErr.nameError "linalg") :=
  rfl

/-- C5: propagating a 5-scalar state with the 5×5 exponential built by
`impulse_matrix` (with the §4.4 forcing, spike increments included) and
projecting onto the `(V, θV, dθV)` coordinates gives, at every bin, exactly
the values obtained by propagating the projected 3-scalar state with the
3×3 exponential of `predict_voltage`: the voltage block is not coupled from
the adaptation rows. -/
theorem claim_C5 (p : Fin 10 → ℝ) (dt : ℝ) (y0 : Fin 5 → ℝ) (I spk : ℕ → ℝ) :
    ∀ (n : ℕ) (i : Fin 3),
      fullIter (impulse_matrix p dt) p I spk y0 n (voltageProj i) =
        voltageIter (voltageAexp (dropTref p) dt) (dropTref p) I
          (fun j => y0 (voltageProj j)) n i := by
  intro n
  induction n with
  | zero => intro i; rfl
  | succ n ih =>
    intro i
    show fullStep (impulse_matrix p dt) p
        (fullIter (impulse_matrix p dt) p I spk y0 n) (I n) (spk n) (voltageProj i) = _
    rw [fullStep, Pi.add_apply,
      mulVec_block (impulse_matrix p dt) (voltageAexp (dropTref p) dt) voltageProj
        (by decide) (impulse_matrix_block p dt) (impulse_matrix_block_zero p dt) _ i,
      fullForcing_block p (I n) (spk n) i]
    show _ = voltageStep (voltageAexp (dropTref p) dt) (dropTref p)
        (voltageIter (voltageAexp (dropTref p) dt) (dropTref p) I
          (fun j => y0 (voltageProj j)) n) (I n) i
    rw [voltageStep, Pi.add_apply]
    congr 1
    congr 1
    funext j
    exact ih j

/-- Counterexample for C6: `impulse_matrix` called with the invalid parameter
vector whose fast time constant is `t1 = -1` (all other entries 1) and
`dt = 1` does not raise a domain error — it silently returns a matrix, whose
`(1,1)` entry is the growth factor `exp(1)`. -/
theorem claim_C6_counterexample :
    impulse_matrix (fun i => if i = 6 then -1 else 1) 1 1 1 = Real.exp 1 := by
  have h := (impulse_matrix_diag (fun i => if i = 6 then -1 else 1) 1).2.1
  norm_num at h
  exact h

/-- C6 amended: `impulse_matrix` performs no validation whatsoever — for
every parameter vector (including non-positive time constants) and every
`dt` (including `dt ≤ 0`) it silently returns the matrix exponential of the
constructed system matrix, whose diagonal is
`(exp(-dt/tm), exp(-dt/t1), exp(-dt/t2), exp(-dt/tv), exp(-dt/tv))`; no
error is ever raised. -/
theorem claim_C6_amended (p : Fin 10 → ℝ) (dt : ℝ) :
    impulse_matrix p dt 0 0 = Real.exp (-dt / p 4) ∧
    impulse_matrix p dt 1 1 = Real.exp (-dt / p 6) ∧
    impulse_matrix p dt 2 2 = Real.exp (-dt / p 7) ∧
    impulse_matrix p dt 3 3 = Real.exp (-dt / p 8) ∧
    impulse_matrix p dt 4 4 = Real.exp (-dt / p 8) :=
  impulse_matrix_diag p dt

/-- C7: `loglike_exp` returns, at every row `i`, exactly
`V[i,0] - H[i,0] - H[i,1] - V[i,1] - w` with `w = params[3]`, and depends on
nothing else. -/
theorem claim_C7 {N : ℕ} (V : Fin N → Fin 3 → ℝ) (H : Fin N → Fin 2 → ℝ)
    (p : Fin 10 → ℝ) (i : Fin N) :
    loglike_exp V H p i = V i 0 - H i 0 - H i 1 - V i 1 - p 3 :=
  rfl

/-- C9: reseeding the shared random stream to the same seed before each of
two stochastic integration runs over identical parameters, initial state and
current trace yields exactly equal spike trains. -/
theorem claim_C9 (seed : ℕ) (p : Fin 10 → ℝ) (dt : ℝ) (y0 : Fin 5 → ℝ)
    (current : List ℝ) :
    (twoSeededRuns seed p dt y0 current).1 = (twoSeededRuns seed p dt y0 current).2 :=
  rfl

/-- Counterexample for C10: `predict_voltage` takes no up-sampling factor,
and even the claimed `k = 1` behaviour fails — on a perfectly valid input the
call returns a `NameError` instead of the plain per-sample recurrence. -/
theorem claim_C10_counterexample :
    predict_voltage (fun _ => 1) (fun _ => 0) [1] 1 =
      Except.error (PyErr.nameError "linalg") :=
  rfl

/-- C10 amended: `predict_voltage` has no up-sampling parameter (its
signature is `(params, state, current, dt)`) and every call dies with a
`NameError`; the loop it contains (lines 62–69) implements the plain
single-sub-step per-sample recurrence — one output row per input sample,
row `n` being the `(n+1)`-st iterate of `voltageStep`. -/
theorem claim_C10_amended (Aexp : Matrix (Fin 3) (Fin 3) ℝ) (p : Fin 9 → ℝ)
    (y0 : Fin 3 → ℝ) (L : List ℝ) (I : ℕ → ℝ) (N : ℕ) :
    (voltageLoop Aexp p y0 L).length = L.length ∧
      voltageLoop Aexp p y0 ((List.range N).map I) =
        (List.range N).map fun k => voltageIter Aexp p I y0 (k + 1) := by
  refine ⟨voltageLoop_length Aexp p y0 L, ?_⟩
  rw [List.range_eq_range']
  exact voltageLoop_range' Aexp p I y0 N 0

/-- Counterexample for C4: with `tm = R = 1`, `dt = 1` and the constant unit
current (`A = 1`), the claim predicts convergence of the voltage to
`A·R = 1`; the recurrence of `predict_voltage` (which forces with `R/tm·I[i]`
each step rather than with an exact zero-order hold) does not converge to 1 —
its limit is `1/(1 - exp(-1)) ≈ 1.58`. -/
theorem claim_C4_counterexample :
    ¬ Filter.Tendsto
        (fun n => voltageIter (voltageAexp (fun _ => 1) 1) (fun _ => 1)
          (fun _ => 1) (fun _ => 0) n 0)
        Filter.atTop (nhds 1) := by
  intro habs
  have h := voltage_tendsto (fun _ => 1) 1 1 (fun _ => 0) (fun _ => 1) 0
    (by norm_num) (by norm_num) (fun n _ => rfl)
  have heq : (1 : ℝ) = 1 * 1 / 1 / (1 - Real.exp (-1 / 1)) :=
    tendsto_nhds_unique habs h
  have h1 : Real.exp (-(1 : ℝ)) < 1 := by
    rw [Real.exp_lt_one_iff]
    norm_num
  have h2 : (0 : ℝ) < 1 - Real.exp (-1) := by linarith
  have h3 : Real.exp (-(1 : ℝ)) > 0 := Real.exp_pos _
  rw [show (-1 : ℝ) / 1 = -1 by norm_num] at heq
  rw [eq_div_iff h2.ne'] at heq
  nlinarith

/-- C4 amended: for every valid parameter set (`tm > 0`, `dt > 0`) and every
current that is constantly `A` from some bin `m` onward, the voltage
component of the `predict_voltage` recurrence converges — but to the fixed
point `R·A/tm / (1 - exp(-dt/tm))` of the per-step pulse forcing, not to
`A·R`. -/
theorem claim_C4_amended (p : Fin 9 → ℝ) (dt A : ℝ) (y0 : Fin 3 → ℝ)
    (I : ℕ → ℝ) (m : ℕ) (htm : 0 < p 4) (hdt : 0 < dt)
    (hI : ∀ n, m ≤ n → I n = A) :
    Filter.Tendsto (fun n => voltageIter (voltageAexp p dt) p I y0 n 0)
      Filter.atTop (nhds (p 5 * A / p 4 / (1 - Real.exp (-dt / p 4)))) :=
  voltage_tendsto p dt A y0 I m htm hdt hI

/-- Witness for the amended C4: the convergence statement at the all-ones
parameter vector, `dt = 1`, constant unit current from bin 0. -/
theorem claim_C4_witness :
    (0 : ℝ) < 1 ∧
      Filter.Tendsto
        (fun n => voltageIter (voltageAexp (fun _ => 1) 1) (fun _ => 1)
          (fun _ => 1) (fun _ => 0) n 0)
        Filter.atTop (nhds (1 * 1 / 1 / (1 - Real.exp (-1 / 1)))) :=
  ⟨by norm_num,
   claim_C4_amended (fun _ => 1) 1 1 (fun _ => 0) (fun _ => 1) 0
     (by norm_num) (by norm_num) (fun n _ => rfl)⟩

/-- Counterexample for C1: a single spike at bin 0 (all parameters 1, zero
initial state, `dt = 1`, `N = 1`) changes row 0 of `predict_adaptation`'s
output: with the spike the row is `(1, 1)`, without it `(0, 0)` — the spike
at bin `i` alters bin `i`'s own output row, not first bin `i+1`. -/
theorem claim_C1_counterexample :
    predict_adaptation (fun _ => 1) (fun _ => 0) [0] 1 1 ≠
      predict_adaptation (fun _ => 1) (fun _ => 0) [] 1 1 := by
  have e1 : truncTowardZero ((0 : ℝ) / 1) = 0 := by
    rw [truncTowardZero, if_neg (by norm_num)]
    norm_num
  have e2 : npSetOnes 1 [0] (fun _ => (0 : ℝ)) =
      Except.ok (fun i : ℕ => if (i : ℤ) = 0 then (1 : ℝ) else 0) := by
    simp only [npSetOnes]
    rw [if_pos (by norm_num)]
  have h1 : predict_adaptation (fun _ => 1) (fun _ => 0) [0] 1 1 =
      Except.ok [((1 : ℝ), (1 : ℝ))] := by
    rw [predict_adaptation]
    rw [List.map_cons, List.map_nil, e1, e2]
    simp [List.range_succ, adaptLoop, adaptStep]
  have h2 : predict_adaptation (fun _ => 1) (fun _ => 0) [] 1 1 =
      Except.ok [((0 : ℝ), (0 : ℝ))] := by
    rw [predict_adaptation]
    rw [List.map_nil]
    simp only [npSetOnes]
    simp [List.range_succ, adaptLoop, adaptStep]
  rw [h1, h2]
  simp

/-- C1 amended: in the `predict_adaptation` loop a spike indicator at bin `i`
affects the output from row `i` onward, not from row `i+1`: rows before `i`
are independent of the value at bin `i`, while row `i` itself already
receives the full undecayed increments `(a1, a2)`. -/
theorem claim_C1_amended (A1 A2 a1 a2 : ℝ) (spk : List ℝ) (i : ℕ) (y : ℝ × ℝ)
    (hi : i < spk.length) :
    (∀ (v w : ℝ) (j : ℕ), j < i →
        (adaptLoop A1 A2 a1 a2 y (spk.set i v)).getD j (0, 0) =
          (adaptLoop A1 A2 a1 a2 y (spk.set i w)).getD j (0, 0)) ∧
      (adaptLoop A1 A2 a1 a2 y (spk.set i 1)).getD i (0, 0) =
        (adaptLoop A1 A2 a1 a2 y (spk.set i 0)).getD i (0, 0) + (a1, a2) :=
  ⟨fun v w j hj => adaptLoop_set_before A1 A2 a1 a2 spk i j v w y hj,
   adaptLoop_set_at A1 A2 a1 a2 spk i y hi⟩

/-- Witness for the amended C1: the statement at concrete coefficients, a
one-bin indicator list, and bin 0. -/
theorem claim_C1_witness :
    0 < [(4 : ℝ)].length ∧
      ((∀ (v w : ℝ) (j : ℕ), j < 0 →
          (adaptLoop 2 3 5 7 ((0 : ℝ), (0 : ℝ)) ([(4 : ℝ)].set 0 v)).getD j (0, 0) =
            (adaptLoop 2 3 5 7 ((0 : ℝ), (0 : ℝ)) ([(4 : ℝ)].set 0 w)).getD j (0, 0)) ∧
        (adaptLoop 2 3 5 7 ((0 : ℝ), (0 : ℝ)) ([(4 : ℝ)].set 0 1)).getD 0 (0, 0) =
          (adaptLoop 2 3 5 7 ((0 : ℝ), (0 : ℝ)) ([(4 : ℝ)].set 0 0)).getD 0 (0, 0) + (5, 7)) :=
  ⟨by simp, claim_C1_amended 2 3 5 7 [4] 0 (0, 0) (by simp)⟩

/-- Counterexample for C8: `predict_adaptation` does not reject the negative
spike index `-1` (time `-1`, `dt = 1`, `N = 2`): instead of an error, the
index wraps around numpy-style to bin `N - 1 = 1` and the call succeeds,
returning rows `(0,0)` and `(1,1)`. -/
theorem claim_C8_counterexample :
    predict_adaptation (fun _ => 1) (fun _ => 0) [-1] 1 2 =
      Except.ok [((0 : ℝ), (0 : ℝ)), (1, 1)] := by
  have e1 : truncTowardZero ((-1 : ℝ) / 1) = -1 := by
    rw [truncTowardZero, if_pos (by norm_num)]
    norm_num [Int.ceil_neg]
  have e2 : npSetOnes 2 [-1] (fun _ => (0 : ℝ)) =
      Except.ok (fun i : ℕ => if (i : ℤ) = 1 then (1 : ℝ) else 0) := by
    simp only [npSetOnes]
    rw [if_neg (by norm_num), if_pos (by norm_num)]
    norm_num
  rw [predict_adaptation]
  rw [List.map_cons, List.map_nil, e1, e2]
  simp [List.range_succ, adaptLoop, adaptStep]

/-- C8 amended: `predict_adaptation` always requires the trace length `N` and
always interprets its spike argument as a list of spike times to be divided
by `dt` and truncated; the call raises an `IndexError` before the propagation
loop exactly when some resulting index lies outside `[-N, N)` — indices in
`[-N, 0)` are not rejected but wrap around to bin `N + idx`, and a 0/1
indicator array is not recognised as such (its values too are treated as
times). -/
theorem claim_C8_amended (p : Fin 9 → ℝ) (st : Fin 5 → ℝ) (spikes : List ℝ)
    (dt : ℝ) (N : ℕ) :
    (predict_adaptation p st spikes dt N).isOk = true ↔
      ∀ t ∈ spikes, -(N : ℤ) ≤ truncTowardZero (t / dt) ∧
        truncTowardZero (t / dt) < (N : ℤ) := by
  have h := npSetOnes_isOk N (spikes.map fun t => truncTowardZero (t / dt)) (fun _ => 0)
  have hmem : (∀ v ∈ spikes.map fun t => truncTowardZero (t / dt),
      -(N : ℤ) ≤ v ∧ v < (N : ℤ)) ↔
      (∀ t ∈ spikes, -(N : ℤ) ≤ truncTowardZero (t / dt) ∧
        truncTowardZero (t / dt) < (N : ℤ)) := by
    simp [List.mem_map]
  rw [← hmem, ← h]
  rw [predict_adaptation]
  rcases hnp : npSetOnes N (spikes.map fun t => truncTowardZero (t / dt)) (fun _ => 0)
    with e | spk
  · simp [Except.isOk, Except.toBool]
  · simp [Except.isOk, Except.toBool]
